import Mathlib

/-!
# Verification of the meme-data-crawler core pipeline

Shallow embedding, in Lean 4, of the core logic of the `meme-data-crawler`
repository: the acquisition (crawler) engine's checkpointing and retry
policy, the content-addressed deduplication engine, the durable-store
metadata log operations, the filename derivation of the downloader
(including a full SHA-256 implementation, which the code obtains from the
`sha2` crate), and the reverse-search (enrichment) engine together with its
keyword filter.

Pure computations are translated as Lean functions; file-system state is
made explicit as a `Store` value; network and HTML-extraction effects are
passed in as outcome functions.  Timestamps (`chrono` values) are modelled
as plain `Nat` where a field must be kept, and dropped where no claim
mentions them.
-/

namespace MemeCrawler

/-! ## Data model (`src/types.rs`) -/

/-- `ImageMetadata` from `src/types.rs`: one record of the append-only
`metadata.jsonl` log.  `downloaded_at : DateTime<Utc>` is modelled as a
`Nat` tick. -/
structure ImageMetadata where
  filename : String
  description : String
  url : String
  content_hash : String
  page_number : Nat
  downloaded_at : Nat
deriving DecidableEq, Repr

/-- `Progress` from `src/types.rs`: the crawl checkpoint persisted in
`progress.json`.  `last_updated` is modelled as a `Nat` tick. -/
structure Progress where
  last_completed_page : Nat
  total_images_downloaded : Nat
  last_updated : Nat
  failed_pages : List Nat
deriving DecidableEq, Repr

namespace Progress

/-- `Progress::new` (the zero-valued checkpoint). -/
def new : Progress :=
  { last_completed_page := 0
    total_images_downloaded := 0
    last_updated := 0
    failed_pages := [] }

/-- `Progress::update`: record a successfully completed page.  Note that it
sets `last_completed_page := page` unconditionally — there is no
monotonicity or gap check. -/
def update (p : Progress) (page : Nat) (images_count : Nat) (now : Nat) : Progress :=
  { p with
    last_completed_page := page
    total_images_downloaded := p.total_images_downloaded + images_count
    last_updated := now }

/-- `Progress::add_failed_page`: record a failed page (deduplicated). -/
def add_failed_page (p : Progress) (page : Nat) (now : Nat) : Progress :=
  { p with
    failed_pages := if page ∈ p.failed_pages then p.failed_pages else p.failed_pages ++ [page]
    last_updated := now }

end Progress

/-- `DuplicateRecord` from `src/types.rs`. -/
structure DuplicateRecord where
  content_hash : String
  files : List String
deriving DecidableEq, Repr

/-! ## Acquisition engine (`src/crawler/engine.rs`)

`CrawlerEngine::run` partitions the page range
`[last_completed_page + 1, total_pages]` into batches of `concurrency`
pages.  Within a batch the spawned tasks are awaited in spawn order, i.e.
in increasing page order, and their results merged into the shared
`Progress` in that order; the checkpoint is persisted once per batch.  The
network/parse/download outcome of page `p` is abstracted as
`outcome p : Option Nat` (`some count` = page succeeded with `count`
downloaded images, `none` = the page task failed). -/

/-- The inclusive page range `start..=total` of the Rust loop. -/
def pageRange (start total : Nat) : List Nat :=
  List.range' start (total + 1 - start)

/-- Chunking worker, structurally recursive on a fuel bound (the fuel never
runs out when it is at least the list length, since every chunk consumes at
least one element). -/
def chunksOfAux {α : Type} : Nat → Nat → List α → List (List α)
  | _, _, [] => []
  | 0, _, _ :: _ => []
  | _ + 1, 0, _ :: _ => []
  | fuel + 1, n + 1, x :: xs =>
    (x :: xs).take (n + 1) :: chunksOfAux fuel (n + 1) ((x :: xs).drop (n + 1))

/-- Partition a list into consecutive chunks of size `n` (the effect of
`step_by(n)` plus `batch_start..=batch_end` in `CrawlerEngine::run`). -/
def chunksOf (n : Nat) (l : List α) : List (List α) :=
  chunksOfAux l.length n l

/-- The batches of pages processed by one run (`(start..=total).step_by(conc)`
with `batch_end = min(batch_start + conc - 1, total)`). -/
def crawlerBatches (start total conc : Nat) : List (List Nat) :=
  chunksOf conc (pageRange start total)

/-- Merging one settled page task into the checkpoint
(the `match result` arm of `CrawlerEngine::run`). -/
def crawlerStepPage (outcome : Nat → Option Nat) (p : Progress) (page : Nat) : Progress :=
  match outcome page with
  | some count => p.update page count p.last_updated.succ
  | none => p.add_failed_page page p.last_updated.succ

/-- Awaiting all tasks of one batch in spawn order and merging their
outcomes into the checkpoint. -/
def runPages (outcome : Nat → Option Nat) (p : Progress) (pages : List Nat) : Progress :=
  pages.foldl (crawlerStepPage outcome) p

/-- The sequence of `Progress` values seen at the per-batch
`save_progress` calls of a run, preceded by the loaded checkpoint `p₀`
(head of the `scanl`).  `resumeFrom = p₀.last_completed_page + 1`. -/
def savedCheckpoints (outcome : Nat → Option Nat) (p₀ : Progress)
    (total conc : Nat) : List Progress :=
  (crawlerBatches (p₀.last_completed_page + 1) total conc).scanl (runPages outcome) p₀

/-! ## Fetch retry policy (`src/fetcher.rs`)

`HttpFetcher::fetch_with_retry` loops `for attempt in 0..=max_retries`;
before every attempt with index `> 0` it sleeps `2^(attempt-1)` seconds.
An attempt is abstracted as `outcome attempt : Option String` (`some body`
= 2xx response whose body was read, `none` = transport error, non-2xx
status, or body-read failure — all of which the code treats alike via
`continue`). -/

/-- Observable trace of one `fetch_with_retry` call: how many attempts were
made, the sleeps (in seconds) performed before retries, and the final
result (`none` = all attempts failed, the call returns the last error). -/
structure FetchTrace where
  attempts : Nat
  waits : List Nat
  result : Option String
deriving DecidableEq, Repr

/-- The retry loop body, iterated over the list of attempt indices. -/
def fetchLoop (outcome : Nat → Option String) : List Nat → FetchTrace
  | [] => { attempts := 0, waits := [], result := none }
  | a :: rest =>
    let waitsHere : List Nat := if a > 0 then [2 ^ (a - 1)] else []
    match outcome a with
    | some body => { attempts := 1, waits := waitsHere, result := some body }
    | none =>
      let t := fetchLoop outcome rest
      { attempts := t.attempts + 1, waits := waitsHere ++ t.waits, result := t.result }

/-- `HttpFetcher::fetch_with_retry`: attempts are indexed `0..=max_retries`. -/
def fetch_with_retry (max_retries : Nat) (outcome : Nat → Option String) : FetchTrace :=
  fetchLoop outcome (List.range (max_retries + 1))

/-! ## Durable store (`src/file_manager.rs`)

The on-disk state touched by the deduplication engine is modelled
explicitly: the `images/` directory as the list of blob filenames present,
`metadata.jsonl` as `Option (List ImageMetadata)` (`none` = the file does
not exist; its records are kept parsed, since dedup round-trips them
through serde unchanged), and `metadata.jsonl.backup` likewise. -/

structure Store where
  images : List String
  metadata : Option (List ImageMetadata)
  backup : Option (List ImageMetadata)
deriving DecidableEq, Repr

namespace FileManager

/-- `FileManager::load_all_metadata` restricted to an intact log (as used by
the dedup engine): a missing file reads as the empty record list. -/
def loadMetadata (s : Store) : List ImageMetadata :=
  s.metadata.getD []

/-- `FileManager::backup_metadata`: copy `metadata.jsonl` to its `.backup`
sibling when the log exists; do nothing when it does not. -/
def backup_metadata (s : Store) : Store :=
  match s.metadata with
  | some log => { s with backup := some log }
  | none => s

/-- `FileManager::rewrite_metadata`: atomically replace the whole log. -/
def rewrite_metadata (records : List ImageMetadata) (s : Store) : Store :=
  { s with metadata := some records }

/-- `fs::remove_file` on `images/<filename>`: succeeds exactly when the blob
is present (the `Err` branch of the code covers an already-missing file). -/
def removeImage (s : Store) (filename : String) : Store × Bool :=
  if filename ∈ s.images then ({ s with images := s.images.erase filename }, true)
  else (s, false)

/-- Rust `char::is_whitespace`: the Unicode `White_Space` property —
U+0009..U+000D, space, NEL, NBSP, Ogham space mark, U+2000..U+200A, the
line and paragraph separators, narrow NBSP, medium mathematical space, and
the ideographic space. -/
def isUnicodeWhitespace (c : Char) : Bool :=
  let n := c.toNat
  (9 ≤ n && n ≤ 13) || n == 32 || n == 0x85 || n == 0xA0 || n == 0x1680 ||
  (0x2000 ≤ n && n ≤ 0x200A) || n == 0x2028 || n == 0x2029 || n == 0x202F ||
  n == 0x205F || n == 0x3000

/-- `line.trim().is_empty()`: a line is blank iff every character has the
Unicode `White_Space` property (what Rust's `str::trim` strips). -/
def isBlankLine (line : String) : Bool :=
  line.data.all isUnicodeWhitespace

/-- Line-by-line read of a record log (`FileManager::load_all_metadata`,
lines 104–118): blank lines (`line.trim().is_empty()`) are skipped; a line
the parser rejects fails the whole read (`none`); otherwise the records are
collected in line order.  The serde parser (external crate) is passed in as
`parse`. -/
def load_all_metadata (parse : String → Option ImageMetadata) :
    List String → Option (List ImageMetadata)
  | [] => some []
  | line :: rest =>
    if isBlankLine line then load_all_metadata parse rest
    else
      match parse line with
      | none => none
      | some m => (load_all_metadata parse rest).map (m :: ·)

end FileManager

/-! ## Deduplication engine (`src/dedup.rs`) -/

/-- `DedupResult` from `src/dedup.rs`. -/
structure DedupResult where
  total_images : Nat
  unique_images : Nat
  duplicate_groups : Nat
  duplicate_images : Nat
  duplicates : List DuplicateRecord
deriving DecidableEq, Repr

namespace DedupAnalyzer

/-- The group of records sharing one content hash, in log-append order (the
push order of the `hash_map` entry's `Vec` in `DedupAnalyzer::analyze`). -/
def hashGroup (records : List ImageMetadata) (h : String) : List ImageMetadata :=
  records.filter (fun m => m.content_hash = h)

/-- The distinct content hashes of the log — the key set of `hash_map`.
`std::collections::HashMap` iterates its keys in an unspecified order; the
model fixes one (`List.dedup`).  Every field of `DedupResult` proved about
below is independent of the key order. -/
def hashKeys (records : List ImageMetadata) : List String :=
  (records.map (fun m => m.content_hash)).dedup

/-- The content of `hash_map` after the grouping loop of `analyze`. -/
def hashGroups (records : List ImageMetadata) : List (String × List ImageMetadata) :=
  (hashKeys records).map (fun h => (h, hashGroup records h))

/-- `DedupAnalyzer::analyze` on the records of an intact metadata log:
group by `content_hash`; every group of size > 1 becomes one
`DuplicateRecord` and contributes `size - 1` to `duplicate_images`;
`total_images` is the summed group size and `unique_images` the number of
groups (`hash_map.len()`). -/
def analyze (records : List ImageMetadata) : DedupResult :=
  let groups := hashGroups records
  let duplicates := groups.filterMap fun g =>
    if g.2.length > 1 then
      some { content_hash := g.1, files := g.2.map (fun m => m.filename) }
    else none
  { total_images := (groups.map (fun g => g.2.length)).sum
    unique_images := groups.length
    duplicate_groups := duplicates.length
    duplicate_images := (groups.map (fun g => if g.2.length > 1 then g.2.length - 1 else 0)).sum
    duplicates := duplicates }

/-- The filenames inserted into `files_to_remove` by `remove_duplicates`:
every member of every duplicate group except the group's first file. -/
def filesToRemove (result : DedupResult) : List String :=
  result.duplicates.flatMap (fun g => g.files.drop 1)

/-- The blob-deletion loop of `remove_duplicates` (non-dry-run): delete each
marked blob in order, counting the successful deletions; a failed deletion
is logged and skipped. -/
def deleteBlobs (s : Store) (files : List String) : Store × Nat :=
  files.foldl
    (fun acc f =>
      let (s', ok) := FileManager.removeImage acc.1 f
      (s', if ok then acc.2 + 1 else acc.2))
    (s, 0)

/-- `DedupAnalyzer::remove_duplicates`: on `dry_run` the store is only
inspected; otherwise the log is backed up, the marked blobs deleted
(best effort), and — when anything was marked — the log reloaded, filtered
by filename against the marked set, and atomically rewritten.  Returns the
updated store and `removed_count`. -/
def remove_duplicates (result : DedupResult) (dry_run : Bool) (s : Store) :
    Store × Nat :=
  let s₁ := if dry_run then s else FileManager.backup_metadata s
  let toRemove := filesToRemove result
  let deleted := if dry_run then (s₁, 0) else deleteBlobs s₁ toRemove
  let s₃ :=
    if !dry_run && !toRemove.isEmpty then
      let all := FileManager.loadMetadata deleted.1
      FileManager.rewrite_metadata
        (all.filter (fun m => !toRemove.contains m.filename)) deleted.1
    else deleted.1
  (s₃, deleted.2)

end DedupAnalyzer

/-! ## Reverse-search types (`src/reverse_search/types.rs`) -/

/-- `ReverseSearchResult`: one line of `reverse_search_results.jsonl`.
`searched_at` is modelled as a `Nat` tick. -/
structure ReverseSearchResult where
  filename : String
  service : String
  suggested_title : Option String
  keywords : List String
  related_sites : List String
  best_guess : Option String
  searched_at : Nat
deriving DecidableEq, Repr

/-- `SearchProgress`: the enrichment checkpoint.  `completed_files` is a
`HashSet<String>` in the code; it is modelled as a duplicate-free list with
set semantics. -/
structure SearchProgress where
  completed_files : List String
  last_updated : Nat
deriving DecidableEq, Repr

namespace SearchProgress

/-- `SearchProgress::new`. -/
def new : SearchProgress := { completed_files := [], last_updated := 0 }

/-- `SearchProgress::add_completed`. -/
def add_completed (p : SearchProgress) (filename : String) : SearchProgress :=
  { p with
    completed_files :=
      if filename ∈ p.completed_files then p.completed_files
      else p.completed_files ++ [filename]
    last_updated := p.last_updated + 1 }

/-- `SearchProgress::is_completed`. -/
def is_completed (p : SearchProgress) (filename : String) : Bool :=
  p.completed_files.contains filename

end SearchProgress

/-- Does the first list occur as a leading segment of the second? -/
def leadsList (needle hay : List Char) : Bool :=
  match needle, hay with
  | [], _ => true
  | a :: as, b :: bs => decide (a = b) && leadsList as bs
  | _, [] => false

/-- Does the first list occur as a contiguous segment of the second? -/
def occursIn (needle : List Char) : List Char → Bool
  | [] => needle.isEmpty
  | c :: rest => leadsList needle (c :: rest) || occursIn needle rest

/-- Rust `haystack.contains(needle)` on strings (byte-level substring
search; for valid UTF-8 this coincides with character-level containment). -/
def containsSub (haystack needle : String) : Bool :=
  occursIn needle.data haystack.data

/-- Rust `to_lowercase()`, per character (they agree on ASCII, the only
range the repository's filter configurations use). -/
def lowercase (s : String) : String :=
  String.mk (s.data.map Char.toLower)

/-- `KeywordFilter` from `src/reverse_search/types.rs`. -/
structure KeywordFilter where
  blocklist : List String
  allowlist : List String
  min_length : Nat
deriving DecidableEq, Repr

namespace KeywordFilter

/-- The `Default` instance of `KeywordFilter`. -/
def default : KeywordFilter :=
  { blocklist := ["porn", "xxx", "adult"], allowlist := [], min_length := 3 }

/-- `KeywordFilter::filter`: drop keywords shorter than `min_length` bytes
(`kw.len()` is the UTF-8 byte count), drop keywords whose lowercase form
contains a blocklisted substring, and — when the allowlist is non-empty —
keep only keywords whose lowercase form contains some allowlisted
substring (itself lowercased). -/
def filter (f : KeywordFilter) (keywords : List String) : List String :=
  keywords.filter fun kw =>
    if kw.utf8ByteSize < f.min_length then false
    else
      let kl := lowercase kw
      if f.blocklist.any (fun blocked => containsSub kl blocked) then false
      else if !f.allowlist.isEmpty then
        f.allowlist.any (fun allowed => containsSub kl (lowercase allowed))
      else true

end KeywordFilter

/-! ## Reverse-search engine (`src/reverse_search/engine.rs`) and backends

A backend (`dyn ReverseSearchService`) is abstracted as a function
`ImageMetadata → Option ReverseSearchResult` (`some r` = `search` returned
`Ok(r)`, `none` = it failed and the engine logs and continues).
`ReverseSearchEngine::run` loops over the pending items in log order and,
for each, over the services in configured order, appending every `Ok`
result to `reverse_search_results.jsonl` unchanged and marking the item
completed afterwards. -/

/-- The observable outcome of `ReverseSearchEngine::run`: the results
appended to the log, in append order, and the final checkpoint. -/
def searchRun (services : List (ImageMetadata → Option ReverseSearchResult))
    (progress₀ : SearchProgress) (all_metadata : List ImageMetadata) :
    List ReverseSearchResult × SearchProgress :=
  let pending := all_metadata.filter (fun m => !progress₀.is_completed m.filename)
  pending.foldl
    (fun acc m =>
      let appended := services.foldl
        (fun ap svc =>
          match svc m with
          | some r => ap ++ [r]
          | none => ap)
        acc.1
      (appended, acc.2.add_completed m.filename))
    ([], progress₀)

/-- What `TinEyeService::search` scrapes out of the TinEye result page
(`extract_match_count`, `extract_related_sites`, `extract_title`). -/
structure TinEyeExtraction where
  match_count : Nat
  related_sites : List String
  title : Option String

/-- `TinEyeService::search` after a successful fetch: the keyword list is
built directly as `["{match_count} matches"]` (or `[]` when the count is
zero) — no `KeywordFilter` is ever applied. -/
def tineyeSearch (extract : ImageMetadata → TinEyeExtraction)
    (m : ImageMetadata) : ReverseSearchResult :=
  let e := extract m
  { filename := m.filename
    service := "tineye"
    suggested_title := e.title
    keywords := if e.match_count > 0 then [toString e.match_count ++ " matches"] else []
    related_sites := e.related_sites
    best_guess := none
    searched_at := 0 }

/-- What `BingService::search` scrapes out of the Bing result page
(`extract_best_guess`, `extract_keywords` — already sorted and deduped —
and `extract_related_sites`). -/
structure BingExtraction where
  best_guess : Option String
  raw_keywords : List String
  related_sites : List String

/-- `BingService::search` after a successful fetch: the scraped keywords are
passed through the service's configured `KeywordFilter` before the result
is returned. -/
def bingSearch (f : KeywordFilter) (extract : ImageMetadata → BingExtraction)
    (m : ImageMetadata) : ReverseSearchResult :=
  let e := extract m
  { filename := m.filename
    service := "bing"
    suggested_title := e.best_guess
    keywords := f.filter e.raw_keywords
    related_sites := e.related_sites
    best_guess := e.best_guess
    searched_at := 0 }

/-! ## Downloader filename derivation (`src/crawler/downloader.rs`) -/

/-- The characters the downloader treats as filesystem-special (the match
arm of `sanitize_filename`). -/
def fsSpecialChars : List Char :=
  ['/', '\\', ':', '*', '?', '"', '<', '>', '|']

/-- One arm of the `match` in `sanitize_filename`. -/
def replaceSpecial (c : Char) : Char :=
  if c ∈ fsSpecialChars then '_' else c

/-- `sanitize_filename`: replace the filesystem-special characters
`/ \ : * ? " < > |` by `_`, then truncate to the first 50 characters. -/
def sanitize_filename (name : String) : String :=
  String.mk ((name.data.map replaceSpecial).take 50)

/-- `url.rsplit('.').next().unwrap_or("jpg")`: the text after the last `.`
of the URL; the whole URL when it contains no `.` (`rsplit` always yields
at least one piece, so the `"jpg"` default is dead). -/
def extOf (url : String) : String :=
  (url.splitOn ".").getLastD url

/-! ## SHA-256 (FIPS 180-4)

`download_and_save` hashes the downloaded bytes with `sha2::Sha256` and
formats the digest as lowercase hex (`format!("{:x}", …)`).  The crate is
external, so the function it computes — SHA-256 — is implemented here over
`Nat` with explicit reduction modulo `2^32`.  A byte is a `Nat < 256`. -/

namespace SHA256

/-- Reduce to a 32-bit word. -/
def w32 (n : Nat) : Nat := n % 4294967296

/-- Right rotation of a 32-bit word. -/
def rotr (x n : Nat) : Nat := w32 ((x >>> n) ||| (x <<< (32 - n)))

/-- Bitwise complement within 32 bits. -/
def bnot (x : Nat) : Nat := x ^^^ 4294967295

def ch (x y z : Nat) : Nat := (x &&& y) ^^^ (bnot x &&& z)

def maj (x y z : Nat) : Nat := (x &&& y) ^^^ (x &&& z) ^^^ (y &&& z)

def bigSigma0 (x : Nat) : Nat := rotr x 2 ^^^ rotr x 13 ^^^ rotr x 22

def bigSigma1 (x : Nat) : Nat := rotr x 6 ^^^ rotr x 11 ^^^ rotr x 25

def smallSigma0 (x : Nat) : Nat := rotr x 7 ^^^ rotr x 18 ^^^ (x >>> 3)

def smallSigma1 (x : Nat) : Nat := rotr x 17 ^^^ rotr x 19 ^^^ (x >>> 10)

/-- The 64 round constants (FIPS 180-4 §4.2.2, written in decimal). -/
def K : List Nat :=
  [1116352408, 1899447441, 3049323471, 3921009573, 961987163, 1508970993,
   2453635748, 2870763221, 3624381080, 310598401, 607225278, 1426881987,
   1925078388, 2162078206, 2614888103, 3248222580, 3835390401, 4022224774,
   264347078, 604807628, 770255983, 1249150122, 1555081692, 1996064986,
   2554220882, 2821834349, 2952996808, 3210313671, 3336571891, 3584528711,
   113926993, 338241895, 666307205, 773529912, 1294757372, 1396182291,
   1695183700, 1986661051, 2177026350, 2456956037, 2730485921, 2820302411,
   3259730800, 3345764771, 3516065817, 3600352804, 4094571909, 275423344,
   430227734, 506948616, 659060556, 883997877, 958139571, 1322822218,
   1537002063, 1747873779, 1955562222, 2024104815, 2227730452, 2361852424,
   2428436474, 2756734187, 3204031479, 3329325298]

/-- The eight-word hash state. -/
structure Digest where
  h0 : Nat
  h1 : Nat
  h2 : Nat
  h3 : Nat
  h4 : Nat
  h5 : Nat
  h6 : Nat
  h7 : Nat
deriving DecidableEq, Repr

/-- The initial hash value (FIPS 180-4 §5.3.3, written in decimal). -/
def initH : Digest :=
  { h0 := 1779033703, h1 := 3144134277, h2 := 1013904242, h3 := 2773480762
    h4 := 1359893119, h5 := 2600822924, h6 := 528734635, h7 := 1541459225 }

/-- Working variables of the compression loop. -/
structure Work where
  a : Nat
  b : Nat
  c : Nat
  d : Nat
  e : Nat
  f : Nat
  g : Nat
  hh : Nat

/-- One compression round on constant `k` and schedule word `w`. -/
def round1 (st : Work) (kw : Nat × Nat) : Work :=
  let t1 := w32 (st.hh + bigSigma1 st.e + ch st.e st.f st.g + kw.1 + kw.2)
  let t2 := w32 (bigSigma0 st.a + maj st.a st.b st.c)
  { a := w32 (t1 + t2), b := st.a, c := st.b, d := st.c
    e := w32 (st.d + t1), f := st.e, g := st.f, hh := st.g }

/-- Big-endian packing of bytes into 32-bit words. -/
def bytesToWords : List Nat → List Nat
  | b0 :: b1 :: b2 :: b3 :: rest =>
    (((b0 <<< 8 ||| b1) <<< 8 ||| b2) <<< 8 ||| b3) :: bytesToWords rest
  | _ => []

/-- Extend the 16-word schedule by `n` further words. -/
def extendSchedule : List Nat → Nat → List Nat
  | ws, 0 => ws
  | ws, n + 1 =>
    let len := ws.length
    let nw := w32 (smallSigma1 (ws.getD (len - 2) 0) + ws.getD (len - 7) 0 +
      smallSigma0 (ws.getD (len - 15) 0) + ws.getD (len - 16) 0)
    extendSchedule (ws ++ [nw]) n

/-- Process one 64-byte block. -/
def compressBlock (H : Digest) (block : List Nat) : Digest :=
  let ws := extendSchedule (bytesToWords block) 48
  let st := (K.zip ws).foldl round1
    { a := H.h0, b := H.h1, c := H.h2, d := H.h3
      e := H.h4, f := H.h5, g := H.h6, hh := H.h7 }
  { h0 := w32 (H.h0 + st.a), h1 := w32 (H.h1 + st.b)
    h2 := w32 (H.h2 + st.c), h3 := w32 (H.h3 + st.d)
    h4 := w32 (H.h4 + st.e), h5 := w32 (H.h5 + st.f)
    h6 := w32 (H.h6 + st.g), h7 := w32 (H.h7 + st.hh) }

/-- Big-endian 8-byte encoding of the 64-bit message bit length. -/
def lengthBytes (ml : Nat) : List Nat :=
  let L := (ml * 8) % 18446744073709551616
  [(L >>> 56) &&& 255, (L >>> 48) &&& 255, (L >>> 40) &&& 255, (L >>> 32) &&& 255,
   (L >>> 24) &&& 255, (L >>> 16) &&& 255, (L >>> 8) &&& 255, L &&& 255]

/-- Pad the message to a multiple of 64 bytes: `0x80`, zeros, bit length. -/
def pad (msg : List Nat) : List Nat :=
  let ml := msg.length
  msg ++ [0x80] ++ List.replicate ((119 - ml % 64) % 64) 0 ++ lengthBytes ml

/-- The SHA-256 digest of a byte sequence. -/
def sha256Digest (msg : List Nat) : Digest :=
  (chunksOf 64 (pad msg)).foldl compressBlock initH

/-- Lowercase hex digit (the behaviour of `format!("{:x}", …)`). -/
def nib (n : Nat) : Char :=
  if n < 10 then Char.ofNat (48 + n) else Char.ofNat (87 + n)

/-- The eight lowercase hex characters of a 32-bit word. -/
def toHex8 (w : Nat) : String :=
  String.mk
    [nib ((w >>> 28) &&& 15), nib ((w >>> 24) &&& 15), nib ((w >>> 20) &&& 15),
     nib ((w >>> 16) &&& 15), nib ((w >>> 12) &&& 15), nib ((w >>> 8) &&& 15),
     nib ((w >>> 4) &&& 15), nib (w &&& 15)]

end SHA256

/-- The lowercase-hex SHA-256 digest of a byte sequence:
`format!("{:x}", hasher.finalize())` in `download_and_save`. -/
def sha256Hex (msg : List Nat) : String :=
  let d := SHA256.sha256Digest msg
  SHA256.toHex8 d.h0 ++ SHA256.toHex8 d.h1 ++ SHA256.toHex8 d.h2 ++
  SHA256.toHex8 d.h3 ++ SHA256.toHex8 d.h4 ++ SHA256.toHex8 d.h5 ++
  SHA256.toHex8 d.h6 ++ SHA256.toHex8 d.h7

/-- The stored filename derived by `ImageDownloader::download_and_save`:
`format!("{}_{}.{}", &hash[..8], sanitize_filename(name), ext)` where
`hash` is the lowercase-hex SHA-256 digest of the downloaded bytes and
`ext` is `url.rsplit('.').next().unwrap_or("jpg")`.  (`&hash[..8]` slices
the first 8 bytes of the hex string; hex is ASCII, so this is its first 8
characters.) -/
def downloadFilename (bytes : List Nat) (name url : String) : String :=
  let hash := sha256Hex bytes
  String.mk (hash.data.take 8) ++ "_" ++ sanitize_filename name ++ "." ++ extOf url

/-- The sixteen lowercase hex digits. -/
def hexDigitChars : List Char :=
  "0123456789abcdef".data

/-! ## Concrete fixtures used by witnesses and counterexamples -/

/-- A helper to build an `ImageMetadata` record from a filename and hash. -/
def mkRecord (filename content_hash : String) : ImageMetadata :=
  { filename := filename, description := "d", url := "u"
    content_hash := content_hash, page_number := 1, downloaded_at := 0 }

/-- A toy serde stand-in for witnesses: parses exactly the line `"good"`. -/
def toyParse (line : String) : Option ImageMetadata :=
  if line = "good" then some (mkRecord "f.png" "h") else none

/-- A two-record log whose two filenames share one content hash. -/
def c4Log : List ImageMetadata := [mkRecord "fa.png" "h", mkRecord "fb.png" "h"]

/-- A store holding `c4Log` and both blobs. -/
def c4Store : Store := { images := ["fa.png", "fb.png"], metadata := some c4Log, backup := none }

/-- The analysis result for `c4Log`: one duplicate cluster of both files. -/
def c4Result : DedupResult :=
  { total_images := 2, unique_images := 1, duplicate_groups := 1, duplicate_images := 1
    duplicates := [{ content_hash := "h", files := ["fa.png", "fb.png"] }] }

/-- A three-record log in which exactly the hash `"a"` repeats (twice). -/
def c6Records : List ImageMetadata :=
  [mkRecord "x.png" "a", mkRecord "y.png" "a", mkRecord "z.png" "b"]

/-!
# Theorems
-/

/-- C9: filtering the keyword list `["xxx", "ab", "cats"]` with
`minLength = 3`, `blocklist = ["xxx"]` and an empty allowlist yields
exactly `["cats"]`. -/
theorem c9_keyword_filter_example :
    KeywordFilter.filter { blocklist := ["xxx"], allowlist := [], min_length := 3 }
      ["xxx", "ab", "cats"] = ["cats"] := by
  decide

/-- C5: `remove_duplicates` with `dry_run = true` never mutates the store —
no blob is deleted, no backup is taken, the metadata log is not rewritten,
and the reported removed count is zero. -/
theorem c5_dry_run_no_mutation (result : DedupResult) (s : Store) :
    DedupAnalyzer.remove_duplicates result true s = (s, 0) :=
  rfl

/-- C8: whenever some non-blank line of the metadata log fails to parse,
`load_all_metadata` fails the whole read — it never returns a partial
record sequence. -/
theorem c8_corrupt_line_fails_whole_read (parse : String → Option ImageMetadata)
    (lines : List String)
    (h : ∃ l ∈ lines, FileManager.isBlankLine l = false ∧ parse l = none) :
    FileManager.load_all_metadata parse lines = none := by
  induction lines with
  | nil => simp at h
  | cons line rest ih =>
    obtain ⟨l, hl, hnb, hp⟩ := h
    by_cases hb : FileManager.isBlankLine line
    · have hlr : l ∈ rest := by
        rcases List.mem_cons.mp hl with rfl | hl'
        · rw [hb] at hnb; cases hnb
        · exact hl'
      simpa [FileManager.load_all_metadata, hb] using ih ⟨l, hlr, hnb, hp⟩
    · rw [FileManager.load_all_metadata]
      simp only [hb, if_false]
      cases hpl : parse line with
      | none => rfl
      | some m =>
        have hlr : l ∈ rest := by
          rcases List.mem_cons.mp hl with rfl | hl'
          · rw [hpl] at hp; cases hp
          · exact hl'
        rw [ih ⟨l, hlr, hnb, hp⟩]
        rfl

/-- Witness for C8 at a concrete log: the line `"bad"` is non-blank and
unparsable, and the whole read fails. -/
theorem c8_witness :
    (∃ l ∈ ["good", " ", "bad"], FileManager.isBlankLine l = false ∧ toyParse l = none) ∧
    FileManager.load_all_metadata toyParse ["good", " ", "bad"] = none := by
  have h : ∃ l ∈ ["good", " ", "bad"], FileManager.isBlankLine l = false ∧ toyParse l = none :=
    ⟨"bad", by simp, by decide, by decide⟩
  exact ⟨h, c8_corrupt_line_fails_whole_read toyParse _ h⟩

/-- C10: blank (all-whitespace) lines are skipped by `load_all_metadata`:
they neither fail the read nor contribute a record, and the result is the
in-order parse of the non-blank lines. -/
theorem c10_blank_lines_skipped (parse : String → Option ImageMetadata)
    (lines : List String) :
    FileManager.load_all_metadata parse lines =
      List.traverse parse (lines.filter (fun l => !FileManager.isBlankLine l)) := by
  induction lines with
  | nil => rfl
  | cons line rest ih =>
    by_cases hb : FileManager.isBlankLine line
    · simp [FileManager.load_all_metadata, hb, ih]
    · rw [FileManager.load_all_metadata]
      simp only [hb, if_false, List.filter_cons]
      simp only [Bool.false_eq_true, if_false, Bool.not_false, if_true, List.traverse]
      cases parse line with
      | none => rfl
      | some m =>
        rw [ih]
        cases List.traverse parse (rest.filter (fun l => !FileManager.isBlankLine l)) with
        | none => rfl
        | some ms => rfl

/-! ### C2: the retry policy of `fetch_with_retry` -/

/-- When every listed attempt fails, the loop performs them all, sleeping
`2^(a-1)` before each attempt of positive index, and returns the error. -/
theorem fetchLoop_all_fail (outcome : Nat → Option String) (l : List Nat)
    (h : ∀ a ∈ l, outcome a = none) :
    fetchLoop outcome l =
      { attempts := l.length
        waits := l.flatMap (fun a => if a > 0 then [2 ^ (a - 1)] else [])
        result := none } := by
  induction l with
  | nil => rfl
  | cons a rest ih =>
    have ha := h a (List.mem_cons_self a rest)
    simp only [fetchLoop, ha]
    rw [ih (fun x hx => h x (List.mem_cons_of_mem _ hx))]
    simp [List.flatMap_cons, Nat.add_comm]

/-- When the attempts up to `a` fail and `a` succeeds, the loop stops at
`a`, having made `l₁.length + 1` attempts. -/
theorem fetchLoop_first_success (outcome : Nat → Option String) (l₁ : List Nat)
    (a : Nat) (l₂ : List Nat) (body : String)
    (h₁ : ∀ x ∈ l₁, outcome x = none) (ha : outcome a = some body) :
    fetchLoop outcome (l₁ ++ a :: l₂) =
      { attempts := l₁.length + 1
        waits := (l₁ ++ [a]).flatMap (fun x => if x > 0 then [2 ^ (x - 1)] else [])
        result := some body } := by
  induction l₁ with
  | nil => simp only [List.nil_append, fetchLoop, ha]; simp
  | cons x rest ih =>
    have hx := h₁ x (List.mem_cons_self x rest)
    simp only [List.cons_append, fetchLoop, hx, List.append_eq]
    rw [ih (fun y hy => h₁ y (List.mem_cons_of_mem _ hy))]
    simp [List.flatMap_cons, Nat.add_comm]

/-- The sleeps over attempt indices `0..=n` are `2^0, …, 2^(n-1)`. -/
theorem flatMap_range_waits (n : Nat) :
    (List.range (n + 1)).flatMap (fun a => if a > 0 then [2 ^ (a - 1)] else []) =
      (List.range n).map (fun k => 2 ^ k) := by
  induction n with
  | zero => rfl
  | succ n ih =>
    rw [List.range_succ (n := n + 1), List.flatMap_append, ih, List.range_succ (n := n)]
    simp

/-- `fetchLoop` never makes more attempts than it was given indices. -/
theorem fetchLoop_attempts_le (outcome : Nat → Option String) (l : List Nat) :
    (fetchLoop outcome l).attempts ≤ l.length := by
  induction l with
  | nil => exact Nat.le_refl 0
  | cons a rest ih =>
    simp only [fetchLoop]
    cases outcome a with
    | some body => simp
    | none => simpa using Nat.succ_le_succ ih

/-- C2 (amended): `fetch_with_retry` makes up to `max_retries + 1` attempts
(the initial attempt of index 0 plus up to `max_retries` retries); no sleep
precedes attempt 0 and the sleep before attempt `k ≥ 1` is `2^(k-1)`
seconds; every failed attempt (non-2xx, transport error, or body-read
error) is retried; if all attempts fail the call returns the last error,
and if the first success is attempt `j` the call stops after `j + 1`
attempts with that body. -/
theorem c2_retry_policy (max_retries : Nat) (outcome : Nat → Option String) :
    (fetch_with_retry max_retries outcome).attempts ≤ max_retries + 1 ∧
    ((∀ i, i ≤ max_retries → outcome i = none) →
      fetch_with_retry max_retries outcome =
        { attempts := max_retries + 1
          waits := (List.range max_retries).map (fun k => 2 ^ k)
          result := none }) ∧
    (∀ j body, j ≤ max_retries → (∀ i, i < j → outcome i = none) →
      outcome j = some body →
      fetch_with_retry max_retries outcome =
        { attempts := j + 1
          waits := (List.range j).map (fun k => 2 ^ k)
          result := some body }) := by
  refine ⟨?_, ?_, ?_⟩
  · simpa [fetch_with_retry] using fetchLoop_attempts_le outcome (List.range (max_retries + 1))
  · intro h
    rw [fetch_with_retry,
      fetchLoop_all_fail outcome _ (fun a hx => h a (Nat.lt_succ_iff.mp (List.mem_range.mp hx))),
      flatMap_range_waits]
    simp
  · intro j body hj hfail hsucc
    have hsplit : List.range (max_retries + 1) = List.range j ++ j :: List.range' (j + 1) (max_retries - j) := by
      rw [List.range_eq_range', List.range_eq_range']
      rw [show max_retries + 1 = ((max_retries - j) + 1) + j by omega]
      rw [← List.range'_append_1 0 j ((max_retries - j) + 1)]
      simp [List.range'_succ]
    rw [fetch_with_retry, hsplit,
      fetchLoop_first_success outcome _ j _ body (fun x hx => hfail x (List.mem_range.mp hx)) hsucc,
      ← List.range_succ, flatMap_range_waits]
    simp

/-- Counterexample for C2 as stated: with `maxRetries = 1` and a fetch that
always fails, the fetcher makes 2 attempts — more than the claimed bound of
`maxRetries = 1` attempts. -/
theorem c2_counterexample :
    (fetch_with_retry 1 (fun _ => none)).attempts = 2 ∧
    ¬((fetch_with_retry 1 (fun _ => none)).attempts ≤ 1) := by
  decide

/-- Witness for C2 at a concrete outcome: `maxRetries = 2`, the first
attempt fails and attempt 1 succeeds, so 2 attempts and one 1-second sleep
are made. -/
theorem c2_witness :
    fetch_with_retry 2 (fun i => if i = 1 then some "ok" else none) =
      { attempts := 2, waits := [1], result := some "ok" } := by
  have h := (c2_retry_policy 2 (fun i => if i = 1 then some "ok" else none)).2.2 1 "ok"
    (by omega) (by intro i hi; interval_cases i; rfl) (by rfl)
  simpa using h

/-! ### C3: keyword filtering before persistence -/

/-- The inner per-item service loop of `ReverseSearchEngine::run` appends
exactly the `Ok` results of the services, in configured order and
unchanged. -/
theorem services_fold_append (services : List (ImageMetadata → Option ReverseSearchResult))
    (m : ImageMetadata) (acc : List ReverseSearchResult) :
    services.foldl
        (fun ap svc =>
          match svc m with
          | some r => ap ++ [r]
          | none => ap) acc =
      acc ++ services.filterMap (fun svc => svc m) := by
  induction services generalizing acc with
  | nil => simp
  | cons svc rest ih =>
    rw [List.foldl_cons, List.filterMap_cons]
    cases svc m with
    | none => rw [ih]
    | some r => rw [ih]; simp

/-- The outer per-item loop of `ReverseSearchEngine::run`, on any starting
accumulator. -/
theorem searchRunFold_fst (services : List (ImageMetadata → Option ReverseSearchResult)) :
    ∀ (pending : List ImageMetadata) (acc : List ReverseSearchResult × SearchProgress),
    (pending.foldl
        (fun acc m =>
          let appended := services.foldl
            (fun ap svc =>
              match svc m with
              | some r => ap ++ [r]
              | none => ap) acc.1
          (appended, acc.2.add_completed m.filename)) acc).1 =
      acc.1 ++ pending.flatMap (fun m => services.filterMap (fun svc => svc m)) := by
  intro pending
  induction pending with
  | nil => intro acc; simp
  | cons m rest ih =>
    intro acc
    rw [List.foldl_cons, ih, List.flatMap_cons]
    simp only [services_fold_append]
    rw [List.append_assoc]

/-- C3 (amended): the engine persists every backend-returned
`ReverseSearchResult` unchanged — the appended log is exactly the `Ok`
results of the pending items — so keyword filtering happens only where a
backend applies it itself: `BingService::search` (and Google) passes its
scraped keywords through its configured `KeywordFilter` (making its
persisted keyword lists filter-invariant), while `TinEyeService::search`
builds its keyword list directly from the scraped match count and never
applies any filter. -/
theorem c3_filter_per_backend :
    (∀ (services : List (ImageMetadata → Option ReverseSearchResult))
        (progress₀ : SearchProgress) (all_metadata : List ImageMetadata),
      (searchRun services progress₀ all_metadata).1 =
        (all_metadata.filter (fun m => !progress₀.is_completed m.filename)).flatMap
          (fun m => services.filterMap (fun svc => svc m))) ∧
    (∀ (f : KeywordFilter) (extract : ImageMetadata → BingExtraction) (m : ImageMetadata),
      (bingSearch f extract m).keywords = f.filter (extract m).raw_keywords ∧
      f.filter (bingSearch f extract m).keywords = (bingSearch f extract m).keywords) ∧
    (∀ (extract : ImageMetadata → TinEyeExtraction) (m : ImageMetadata),
      (tineyeSearch extract m).keywords =
        (if (extract m).match_count > 0
         then [toString (extract m).match_count ++ " matches"]
         else [])) := by
  refine ⟨?_, ?_, ?_⟩
  · intro services progress₀ all_metadata
    rw [searchRun]
    rw [searchRunFold_fst]
    rw [List.nil_append]
  · intro f extract m
    refine ⟨rfl, ?_⟩
    show f.filter (f.filter (extract m).raw_keywords) = f.filter (extract m).raw_keywords
    rw [KeywordFilter.filter, KeywordFilter.filter, List.filter_filter]
    exact List.filter_congr (fun a _ => by rw [Bool.and_self])
  · intro extract m
    rfl

/-- Counterexample for C3 as stated: with the keyword filter configured as
`minLength = 3`, `blocklist = ["porn","xxx","adult","sex"]` and allowlist
`["meme"]`, a TinEye result for an item is persisted with keyword list
`["5 matches"]`, which the configured filter would have reduced to `[]` —
the persisted list was not passed through the filter. -/
theorem c3_counterexample :
    ((searchRun
        [fun mm => some (tineyeSearch (fun _ => ⟨5, [], none⟩) mm)]
        SearchProgress.new [mkRecord "f.png" "h"]).1.map (fun r => r.keywords) =
      [["5 matches"]]) ∧
    KeywordFilter.filter
        { blocklist := ["porn", "xxx", "adult", "sex"], allowlist := ["meme"], min_length := 3 }
        ["5 matches"] = [] := by
  constructor
  · rfl
  · decide

/-! ### C4/C5 support: frame lemmas for the dedup removal path -/

/-- `fs::remove_file` on a blob touches neither `metadata.jsonl` nor its
backup. -/
theorem removeImage_frame (s : Store) (f : String) :
    ((FileManager.removeImage s f).1).metadata = s.metadata ∧
    ((FileManager.removeImage s f).1).backup = s.backup := by
  rw [FileManager.removeImage]
  by_cases hf : f ∈ s.images
  · simp [hf]
  · simp [hf]

/-- The blob-deletion loop touches neither `metadata.jsonl` nor its backup,
whatever its starting accumulator. -/
theorem deleteBlobsFold_frame (files : List String) :
    ∀ acc : Store × Nat,
      ((files.foldl
          (fun acc f =>
            let (s', ok) := FileManager.removeImage acc.1 f
            (s', if ok then acc.2 + 1 else acc.2)) acc).1).metadata = acc.1.metadata ∧
      ((files.foldl
          (fun acc f =>
            let (s', ok) := FileManager.removeImage acc.1 f
            (s', if ok then acc.2 + 1 else acc.2)) acc).1).backup = acc.1.backup := by
  induction files with
  | nil => intro acc; exact ⟨rfl, rfl⟩
  | cons f rest ih =>
    intro acc
    rw [List.foldl_cons]
    refine ⟨?_, ?_⟩
    · rw [(ih _).1]
      exact (removeImage_frame acc.1 f).1
    · rw [(ih _).2]
      exact (removeImage_frame acc.1 f).2

/-- `deleteBlobs` preserves the metadata log and the backup file. -/
theorem deleteBlobs_frame (s : Store) (files : List String) :
    ((DedupAnalyzer.deleteBlobs s files).1).metadata = s.metadata ∧
    ((DedupAnalyzer.deleteBlobs s files).1).backup = s.backup := by
  rw [DedupAnalyzer.deleteBlobs]
  exact deleteBlobsFold_frame files (s, 0)

/-- `backup_metadata` does not change the metadata log itself. -/
theorem backup_metadata_keeps_log (s : Store) :
    (FileManager.backup_metadata s).metadata = s.metadata := by
  rw [FileManager.backup_metadata]
  cases hm : s.metadata with
  | none => simp [hm]
  | some log => simp [hm]

/-- C4: for every analysis result, `remove_duplicates(result, dry_run=false)`
on a store with an intact log leaves the metadata log containing exactly the
records whose filenames were not marked for deletion (each cluster's
members except its first file), and a `.backup` equal to the pre-removal
log written before any deletion — independently of which individual blob
deletions succeed. -/
theorem c4_remove_rewrites_log (result : DedupResult) (s : Store)
    (log : List ImageMetadata) (h : s.metadata = some log) :
    ((DedupAnalyzer.remove_duplicates result false s).1).metadata =
      some (log.filter
        (fun m => !(DedupAnalyzer.filesToRemove result).contains m.filename)) ∧
    ((DedupAnalyzer.remove_duplicates result false s).1).backup = some log := by
  rw [DedupAnalyzer.remove_duplicates]
  have hmeta₁ : (FileManager.backup_metadata s).metadata = some log := by
    rw [backup_metadata_keeps_log, h]
  have hback₁ : (FileManager.backup_metadata s).backup = some log := by
    rw [FileManager.backup_metadata, h]
  have hmeta₂ :
      ((DedupAnalyzer.deleteBlobs (FileManager.backup_metadata s)
          (DedupAnalyzer.filesToRemove result)).1).metadata = some log := by
    rw [(deleteBlobs_frame _ _).1, hmeta₁]
  have hback₂ :
      ((DedupAnalyzer.deleteBlobs (FileManager.backup_metadata s)
          (DedupAnalyzer.filesToRemove result)).1).backup = some log := by
    rw [(deleteBlobs_frame _ _).2, hback₁]
  simp only [Bool.false_eq_true, if_false, Bool.not_false, Bool.true_and]
  cases he : (DedupAnalyzer.filesToRemove result).isEmpty with
  | true =>
    have hnil : DedupAnalyzer.filesToRemove result = [] := by
      simpa [List.isEmpty_iff] using he
    simp only [Bool.not_true, Bool.false_eq_true, if_false]
    refine ⟨?_, hback₂⟩
    rw [hmeta₂, hnil]
    simp
  | false =>
    simp only [Bool.not_false, if_true]
    refine ⟨?_, ?_⟩
    · rw [FileManager.rewrite_metadata, FileManager.loadMetadata, hmeta₂]
      rfl
    · rw [FileManager.rewrite_metadata]
      exact hback₂

/-- Witness for C4 at a concrete store: two records sharing one hash, one
marked file; after removal the log holds only the first record and the
backup holds both. -/
theorem c4_witness :
    c4Store.metadata = some c4Log ∧
    ((DedupAnalyzer.remove_duplicates c4Result false c4Store).1).metadata =
      some (c4Log.filter
        (fun m => !(DedupAnalyzer.filesToRemove c4Result).contains m.filename)) ∧
    ((DedupAnalyzer.remove_duplicates c4Result false c4Store).1).backup = some c4Log :=
  ⟨rfl, (c4_remove_rewrites_log c4Result c4Store c4Log rfl).1,
    (c4_remove_rewrites_log c4Result c4Store c4Log rfl).2⟩

/-! ### C7: the derived filename format -/

/-- Each hex-encoded word contributes exactly 8 characters. -/
theorem toHex8_length (w : Nat) : (SHA256.toHex8 w).length = 8 :=
  rfl

/-- The hex digest always has 64 characters. -/
theorem sha256Hex_length (msg : List Nat) : (sha256Hex msg).length = 64 := by
  simp [sha256Hex, String.length_append, toHex8_length]

/-- `nib` yields a lowercase hex digit on every 4-bit input. -/
theorem nib_mem_hexDigitChars (n : Nat) (h : n < 16) :
    SHA256.nib n ∈ hexDigitChars := by
  revert h
  revert n
  decide

/-- Every character of a hex-encoded word is a lowercase hex digit. -/
theorem toHex8_mem_hexDigitChars (w : Nat) :
    ∀ c ∈ (SHA256.toHex8 w).data, c ∈ hexDigitChars := by
  intro c hc
  have hand : ∀ x : Nat, x &&& 15 < 16 := fun x =>
    Nat.lt_succ_of_le (Nat.and_le_right)
  simp only [SHA256.toHex8, List.mem_cons, List.not_mem_nil, or_false] at hc
  rcases hc with rfl | rfl | rfl | rfl | rfl | rfl | rfl | rfl <;>
    exact nib_mem_hexDigitChars _ (hand _)

/-- Every character of the digest string is a lowercase hex digit. -/
theorem sha256Hex_chars (msg : List Nat) :
    ∀ c ∈ (sha256Hex msg).data, c ∈ hexDigitChars := by
  intro c hc
  simp only [sha256Hex, String.data_append, List.mem_append] at hc
  rcases hc with ((((((h | h) | h) | h) | h) | h) | h) | h <;>
    exact toHex8_mem_hexDigitChars _ c h

/-- The sanitized label never exceeds 50 characters. -/
theorem sanitize_filename_length (name : String) :
    (sanitize_filename name).length ≤ 50 := by
  simp only [sanitize_filename, String.length]
  calc ((name.data.map replaceSpecial).take 50).length
      ≤ 50 := by rw [List.length_take]; exact Nat.min_le_left _ _

/-- The sanitized label contains no filesystem-special character. -/
theorem sanitize_filename_no_special (name : String) :
    ∀ c ∈ (sanitize_filename name).data, c ∉ fsSpecialChars := by
  intro c hc
  simp only [sanitize_filename] at hc
  have hc' : c ∈ name.data.map replaceSpecial := List.take_subset _ _ hc
  obtain ⟨c₀, _, rfl⟩ := List.mem_map.mp hc'
  by_cases h₀ : c₀ ∈ fsSpecialChars
  · simp only [replaceSpecial, h₀, if_true]
    decide
  · simpa only [replaceSpecial, h₀, if_false] using h₀

/-- C7: the stored filename is
`<first 8 hex chars of the SHA-256 digest>_<sanitized label>.<ext>` —
the digest is 64 lowercase hex characters so the sliced head has exactly 8,
the sanitized label is at most 50 characters with every filesystem-special
character replaced, and the extension is the text after the URL's last
dot. -/
theorem c7_filename_format (bytes : List Nat) (name url : String) :
    downloadFilename bytes name url =
      String.mk ((sha256Hex bytes).data.take 8) ++ "_" ++
        sanitize_filename name ++ "." ++ extOf url ∧
    (sha256Hex bytes).length = 64 ∧
    (String.mk ((sha256Hex bytes).data.take 8)).length = 8 ∧
    (∀ c ∈ (sha256Hex bytes).data, c ∈ hexDigitChars) ∧
    (sanitize_filename name).length ≤ 50 ∧
    (∀ c ∈ (sanitize_filename name).data, c ∉ fsSpecialChars) := by
  refine ⟨rfl, sha256Hex_length bytes, ?_, sha256Hex_chars bytes,
    sanitize_filename_length name, sanitize_filename_no_special name⟩
  show ((sha256Hex bytes).data.take 8).length = 8
  rw [List.length_take]
  have h64 : (sha256Hex bytes).data.length = 64 := sha256Hex_length bytes
  rw [h64]
  decide

/-! ### C6 support: counting lemmas for `analyze` -/

/-- A record either carries hash `H` or it does not. -/
theorem filter_partition_length (l : List ImageMetadata) (H : String) :
    (l.filter (fun m => m.content_hash = H)).length +
      (l.filter (fun m => ¬ m.content_hash = H)).length = l.length := by
  induction l with
  | nil => rfl
  | cons r rest ih =>
    simp only [decide_not] at ih ⊢
    by_cases hr : r.content_hash = H
    · simp only [List.filter_cons, hr, decide_eq_true_eq]
      simp only [List.length_cons]
      simp
      omega
    · simp only [List.filter_cons]
      simp [hr]
      omega

/-- For a key other than `H`, filtering by that key ignores the `H`
records. -/
theorem filter_sub_of_ne (l : List ImageMetadata) (h H : String) (hne : h ≠ H) :
    l.filter (fun m => m.content_hash = h) =
      (l.filter (fun m => ¬ m.content_hash = H)).filter
        (fun m => m.content_hash = h) := by
  rw [List.filter_filter]
  refine List.filter_congr (fun m _ => ?_)
  by_cases hmh : m.content_hash = h
  · simp [hmh, hne]
  · simp [hmh]

/-- Summing the per-key group sizes over a duplicate-free key cover gives
back the number of records. -/
theorem sum_filter_over_keys (keys : List String) (l : List ImageMetadata)
    (hcover : ∀ m ∈ l, m.content_hash ∈ keys) (hnd : keys.Nodup) :
    (keys.map (fun h => (l.filter (fun m => m.content_hash = h)).length)).sum =
      l.length := by
  induction keys generalizing l with
  | nil =>
    cases l with
    | nil => rfl
    | cons m rest => exact absurd (hcover m (List.mem_cons_self m rest)) (by simp)
  | cons h rest ih =>
    have hnotin : h ∉ rest := (List.nodup_cons.mp hnd).1
    have hrest :
        (rest.map (fun h' => (l.filter (fun m => m.content_hash = h')).length)) =
        (rest.map (fun h' =>
          ((l.filter (fun m => ¬ m.content_hash = h)).filter
            (fun m => m.content_hash = h')).length)) := by
      refine List.map_congr_left (fun h' hh' => ?_)
      have hne : h' ≠ h := fun e => hnotin (e ▸ hh')
      rw [filter_sub_of_ne l h' h hne]
    rw [List.map_cons, List.sum_cons, hrest,
      ih (l.filter (fun m => ¬ m.content_hash = h))
        (fun m hm => by
          have hml := List.mem_filter.mp hm
          have hmne : ¬ m.content_hash = h := by simpa using hml.2
          rcases List.mem_cons.mp (hcover m hml.1) with e | e
          · exact absurd e hmne
          · exact e)
        (List.nodup_cons.mp hnd).2]
    exact filter_partition_length l h

/-- In a list whose hashes are pairwise distinct, each key matches at most
one record. -/
theorem nodup_map_filter_le_one (l : List ImageMetadata)
    (hnd : (l.map (fun m => m.content_hash)).Nodup) (y : String) :
    (l.filter (fun m => m.content_hash = y)).length ≤ 1 := by
  induction l with
  | nil => exact Nat.zero_le 1
  | cons r rest ih =>
    rw [List.map_cons, List.nodup_cons] at hnd
    by_cases hr : r.content_hash = y
    · have hnone : rest.filter (fun m => m.content_hash = y) = [] := by
        rw [List.filter_eq_nil_iff]
        intro m hm
        simp only [decide_eq_true_eq]
        intro he
        exact hnd.1 (List.mem_map.mpr ⟨m, hm, by rw [he, hr]⟩)
      simp [List.filter_cons, hr, hnone]
    · simp only [List.filter_cons]
      simp only [hr]
      simpa [hr] using ih hnd.2

/-- Every key of the grouping map is the hash of some record. -/
theorem mem_hashKeys (records : List ImageMetadata) (h : String) :
    h ∈ DedupAnalyzer.hashKeys records ↔
      ∃ m ∈ records, m.content_hash = h := by
  rw [DedupAnalyzer.hashKeys, List.mem_dedup, List.mem_map]

/-- A nodup key list where every key except `a` is mapped to `none`
filter-maps to the single image of `a`. -/
theorem filterMap_single {α β : Type} [DecidableEq α] (keys : List α)
    (f : α → Option β) (a : α) (y : β) (hnd : keys.Nodup) (ha : a ∈ keys)
    (hfa : f a = some y) (hother : ∀ x ∈ keys, x ≠ a → f x = none) :
    keys.filterMap f = [y] := by
  induction keys with
  | nil => cases ha
  | cons x rest ih =>
    rw [List.nodup_cons] at hnd
    rcases List.mem_cons.mp ha with rfl | ha'
    · have hnil : rest.filterMap f = [] := by
        rw [List.filterMap_eq_nil_iff]
        intro z hz
        exact hother z (List.mem_cons_of_mem _ hz) (fun e => hnd.1 (e ▸ hz))
      simp only [List.filterMap_cons, hfa, hnil]
    · have hxa : x ≠ a := fun e => hnd.1 (e ▸ ha')
      simp only [List.filterMap_cons, hother x (List.mem_cons_self x rest) hxa]
      exact ih hnd.2 ha' (fun z hz hza => hother z (List.mem_cons_of_mem _ hz) hza)

/-- A map of all-zero values sums to zero. -/
theorem sum_map_zero {α : Type} (l : List α) (f : α → Nat)
    (h : ∀ z ∈ l, f z = 0) : (l.map f).sum = 0 := by
  induction l with
  | nil => rfl
  | cons w ws ihw =>
    rw [List.map_cons, List.sum_cons, h w (List.mem_cons_self w ws),
      ihw (fun z hz => h z (List.mem_cons_of_mem _ hz))]

/-- A map of all-one values sums to the length. -/
theorem sum_map_one {α : Type} (l : List α) (f : α → Nat)
    (h : ∀ z ∈ l, f z = 1) : (l.map f).sum = l.length := by
  induction l with
  | nil => rfl
  | cons w ws ihw =>
    rw [List.map_cons, List.sum_cons, h w (List.mem_cons_self w ws),
      ihw (fun z hz => h z (List.mem_cons_of_mem _ hz)), List.length_cons,
      Nat.add_comm]

/-- A map summing to the sole non-zero image. -/
theorem sum_map_single {α : Type} [DecidableEq α] (keys : List α)
    (f : α → Nat) (a : α) (hnd : keys.Nodup) (ha : a ∈ keys)
    (hother : ∀ x ∈ keys, x ≠ a → f x = 0) :
    (keys.map f).sum = f a := by
  induction keys with
  | nil => cases ha
  | cons x rest ih =>
    rw [List.nodup_cons] at hnd
    rcases List.mem_cons.mp ha with rfl | ha'
    · have hz : ∀ z ∈ rest, f z = 0 := fun z hz =>
        hother z (List.mem_cons_of_mem _ hz) (fun e => hnd.1 (e ▸ hz))
      rw [List.map_cons, List.sum_cons, sum_map_zero rest f hz]
      exact Nat.add_zero _
    · have hxa : x ≠ a := fun e => hnd.1 (e ▸ ha')
      rw [List.map_cons, List.sum_cons, hother x (List.mem_cons_self x rest) hxa,
        ih hnd.2 ha' (fun z hz hza => hother z (List.mem_cons_of_mem _ hz) hza),
        Nat.zero_add]

/-- A map whose values are all `1` except at `a` sums to
`f a + (length - 1)`. -/
theorem sum_map_const_except {α : Type} [DecidableEq α] (keys : List α)
    (f : α → Nat) (a : α) (hnd : keys.Nodup) (ha : a ∈ keys)
    (hother : ∀ x ∈ keys, x ≠ a → f x = 1) :
    (keys.map f).sum = f a + (keys.length - 1) := by
  induction keys with
  | nil => cases ha
  | cons x rest ih =>
    rw [List.nodup_cons] at hnd
    rcases List.mem_cons.mp ha with rfl | ha'
    · have hones : ∀ z ∈ rest, f z = 1 := fun z hz =>
        hother z (List.mem_cons_of_mem _ hz) (fun e => hnd.1 (e ▸ hz))
      rw [List.map_cons, List.sum_cons, sum_map_one rest f hones]
      simp
    · have hxa : x ≠ a := fun e => hnd.1 (e ▸ ha')
      have hlen : 1 ≤ rest.length := List.length_pos.mpr (List.ne_nil_of_mem ha')
      rw [List.map_cons, List.sum_cons, hother x (List.mem_cons_self x rest) hxa,
        ih hnd.2 ha' (fun z hz hza => hother z (List.mem_cons_of_mem _ hz) hza),
        List.length_cons]
      omega

/-- C6: on a log of `N` records in which exactly the hash `H` repeats,
`k ≥ 2` times, and all other content hashes are pairwise distinct,
`analyze` reports `totalImages = N`, exactly one duplicate cluster — the
`k` filenames of `H`'s group in acquisition order — `duplicateImages =
k - 1`, and `uniqueImages = N - k + 1` (`H`'s group counted once). -/
theorem c6_single_duplicate_cluster (records : List ImageMetadata) (H : String)
    (k : Nat) (hk : 2 ≤ k)
    (hcount : (records.filter (fun m => m.content_hash = H)).length = k)
    (hnd : ((records.filter (fun m => ¬ m.content_hash = H)).map
      (fun m => m.content_hash)).Nodup) :
    (DedupAnalyzer.analyze records).total_images = records.length ∧
    (DedupAnalyzer.analyze records).duplicates =
      [{ content_hash := H,
         files := (records.filter (fun m => m.content_hash = H)).map
           (fun m => m.filename) }] ∧
    (DedupAnalyzer.analyze records).duplicate_images = k - 1 ∧
    (DedupAnalyzer.analyze records).unique_images = records.length - k + 1 := by
  have hknd : (DedupAnalyzer.hashKeys records).Nodup := List.nodup_dedup _
  have hcover : ∀ m ∈ records, m.content_hash ∈ DedupAnalyzer.hashKeys records :=
    fun m hm => (mem_hashKeys records _).mpr ⟨m, hm, rfl⟩
  have hHpos : 0 < (records.filter (fun m => m.content_hash = H)).length := by
    omega
  have hHmem : H ∈ DedupAnalyzer.hashKeys records := by
    obtain ⟨m, hm⟩ := List.exists_mem_of_ne_nil _
      (List.ne_nil_of_length_pos hHpos)
    have hm' := List.mem_filter.mp hm
    exact (mem_hashKeys records H).mpr
      ⟨m, hm'.1, by simpa using hm'.2⟩
  -- every key other than H matches exactly one record
  have hone : ∀ h ∈ DedupAnalyzer.hashKeys records, h ≠ H →
      (records.filter (fun m => m.content_hash = h)).length = 1 := by
    intro h hhk hne
    have hle : (records.filter (fun m => m.content_hash = h)).length ≤ 1 := by
      rw [filter_sub_of_ne records h H hne]
      exact nodup_map_filter_le_one _ hnd h
    have hge : 0 < (records.filter (fun m => m.content_hash = h)).length := by
      obtain ⟨m, hm, hmh⟩ := (mem_hashKeys records h).mp hhk
      have : m ∈ records.filter (fun m => m.content_hash = h) :=
        List.mem_filter.mpr ⟨hm, by simpa using hmh⟩
      exact List.length_pos.mpr (List.ne_nil_of_mem this)
    omega
  have hsumN :
      ((DedupAnalyzer.hashKeys records).map
        (fun h => (records.filter (fun m => m.content_hash = h)).length)).sum =
        records.length :=
    sum_filter_over_keys _ records hcover hknd
  have hkeylen : (DedupAnalyzer.hashKeys records).length = records.length - k + 1 := by
    have hexc := sum_map_const_except (DedupAnalyzer.hashKeys records)
      (fun h => (records.filter (fun m => m.content_hash = h)).length) H
      hknd hHmem (fun x hx hne => hone x hx hne)
    rw [hsumN] at hexc
    simp only at hexc
    rw [hcount] at hexc
    have hkpos : 1 ≤ (DedupAnalyzer.hashKeys records).length :=
      List.length_pos.mpr (List.ne_nil_of_mem hHmem)
    have hkN : k ≤ records.length := hcount ▸ List.length_filter_le _ records
    omega
  refine ⟨?_, ?_, ?_, ?_⟩
  · -- total_images
    show ((DedupAnalyzer.hashGroups records).map (fun g => g.2.length)).sum =
      records.length
    rw [DedupAnalyzer.hashGroups, List.map_map]
    exact hsumN
  · -- duplicates
    show (DedupAnalyzer.hashGroups records).filterMap _ = _
    rw [DedupAnalyzer.hashGroups, List.filterMap_map]
    refine filterMap_single _ _ H _ hknd hHmem ?_ ?_
    · have hgt : (DedupAnalyzer.hashGroup records H).length > 1 := by
        show 1 < (records.filter (fun m => m.content_hash = H)).length
        omega
      show (if (DedupAnalyzer.hashGroup records H).length > 1
        then some (DuplicateRecord.mk H
          ((DedupAnalyzer.hashGroup records H).map (fun m => m.filename)))
        else none) =
        some (DuplicateRecord.mk H
          ((records.filter (fun m => m.content_hash = H)).map (fun m => m.filename)))
      rw [if_pos hgt]
      rfl
    · intro h hx hne
      show (if (DedupAnalyzer.hashGroup records h).length > 1 then _ else none) = none
      rw [if_neg]
      show ¬ 1 < (DedupAnalyzer.hashGroup records h).length
      have : (DedupAnalyzer.hashGroup records h).length = 1 := hone h hx hne
      omega
  · -- duplicate_images
    show ((DedupAnalyzer.hashGroups records).map
      (fun g => if g.2.length > 1 then g.2.length - 1 else 0)).sum = k - 1
    rw [DedupAnalyzer.hashGroups, List.map_map]
    show ((DedupAnalyzer.hashKeys records).map
      (fun h => if (DedupAnalyzer.hashGroup records h).length > 1
        then (DedupAnalyzer.hashGroup records h).length - 1 else 0)).sum = k - 1
    rw [sum_map_single (DedupAnalyzer.hashKeys records)
      (fun h => if (DedupAnalyzer.hashGroup records h).length > 1
        then (DedupAnalyzer.hashGroup records h).length - 1 else 0) H hknd hHmem
      (fun x hx hne => by
        have h1 : (DedupAnalyzer.hashGroup records x).length = 1 := hone x hx hne
        simp only [h1]
        rfl)]
    show (if (DedupAnalyzer.hashGroup records H).length > 1
      then (DedupAnalyzer.hashGroup records H).length - 1 else 0) = k - 1
    have hlen : (DedupAnalyzer.hashGroup records H).length = k := hcount
    rw [hlen, if_pos]
    omega
  · -- unique_images
    show (DedupAnalyzer.hashGroups records).length = records.length - k + 1
    rw [DedupAnalyzer.hashGroups, List.length_map]
    exact hkeylen

/-- Witness for C6 at a concrete log: three records, hash `"a"` twice and
`"b"` once — one cluster `["x.png", "y.png"]`, one duplicate, two unique. -/
theorem c6_witness :
    (2 ≤ 2 ∧
      (c6Records.filter (fun m => m.content_hash = "a")).length = 2 ∧
      ((c6Records.filter (fun m => ¬ m.content_hash = "a")).map
        (fun m => m.content_hash)).Nodup) ∧
    (DedupAnalyzer.analyze c6Records).total_images = c6Records.length ∧
    (DedupAnalyzer.analyze c6Records).duplicates =
      [{ content_hash := "a",
         files := (c6Records.filter (fun m => m.content_hash = "a")).map
           (fun m => m.filename) }] ∧
    (DedupAnalyzer.analyze c6Records).duplicate_images = 2 - 1 ∧
    (DedupAnalyzer.analyze c6Records).unique_images = c6Records.length - 2 + 1 := by
  refine ⟨⟨by omega, by decide, by decide⟩, ?_⟩
  exact c6_single_duplicate_cluster c6Records "a" 2 (by omega) (by decide) (by decide)

/-! ### C1 support: the batch loop and the persisted checkpoints -/

/-- The chunking worker inverts under flattening when given enough fuel. -/
theorem chunksOfAux_flatten {α : Type} (m : Nat) :
    ∀ (fuel : Nat) (l : List α), l.length ≤ fuel →
    (chunksOfAux fuel (m + 1) l).flatten = l := by
  intro fuel
  induction fuel with
  | zero =>
    intro l hl
    have : l = [] := List.eq_nil_of_length_eq_zero (Nat.le_zero.mp hl)
    subst this
    rfl
  | succ fuel ih =>
    intro l hl
    cases l with
    | nil => rfl
    | cons x xs =>
      rw [chunksOfAux, List.flatten_cons,
        ih ((x :: xs).drop (m + 1))
          (by
            simp only [List.length_cons] at hl
            simp only [List.length_drop, List.length_cons]
            omega),
        List.take_append_drop]

/-- Chunking and flattening are inverse for a positive chunk size. -/
theorem chunksOf_flatten {α : Type} (n : Nat) (hn : 0 < n) :
    ∀ l : List α, (chunksOf n l).flatten = l := by
  intro l
  cases n with
  | zero => omega
  | succ m => exact chunksOfAux_flatten m l.length l (Nat.le_refl _)

/-- `range'` with step 1 is strictly increasing. -/
theorem pairwise_lt_range' : ∀ (n s : Nat), (List.range' s n).Pairwise (· < ·) := by
  intro n
  induction n with
  | zero => intro s; exact List.Pairwise.nil
  | succ n ih =>
    intro s
    rw [List.range'_succ, List.pairwise_cons]
    refine ⟨?_, ih (s + 1)⟩
    intro m hm
    obtain ⟨i, hi, rfl⟩ := List.mem_range'.mp hm
    omega

/-- A successful page sets the checkpoint page to its own index; a failed
page leaves it unchanged. -/
theorem crawlerStepPage_last (outcome : Nat → Option Nat) (p : Progress) (q : Nat) :
    (crawlerStepPage outcome p q).last_completed_page =
      match outcome q with
      | some _ => q
      | none => p.last_completed_page := by
  rw [crawlerStepPage]
  cases outcome q with
  | some c => rfl
  | none => rfl

/-- Merging an increasing batch of pages, all at or above the current
checkpoint page, never decreases the checkpoint page. -/
theorem runPages_last_mono (outcome : Nat → Option Nat) :
    ∀ (pages : List Nat) (p : Progress), pages.Pairwise (· < ·) →
    (∀ q ∈ pages, p.last_completed_page ≤ q) →
    p.last_completed_page ≤ (runPages outcome p pages).last_completed_page := by
  intro pages
  induction pages with
  | nil => intro p _ _; exact Nat.le_refl _
  | cons q rest ih =>
    intro p hsort hlb
    rw [List.pairwise_cons] at hsort
    show p.last_completed_page ≤
      (runPages outcome (crawlerStepPage outcome p q) rest).last_completed_page
    cases ho : outcome q with
    | some c =>
      have h1 : (crawlerStepPage outcome p q).last_completed_page = q := by
        rw [crawlerStepPage_last, ho]
      have h2 := ih (crawlerStepPage outcome p q) hsort.2
        (fun r hr => by rw [h1]; exact Nat.le_of_lt (hsort.1 r hr))
      calc p.last_completed_page ≤ q := hlb q (List.mem_cons_self q rest)
        _ = (crawlerStepPage outcome p q).last_completed_page := h1.symm
        _ ≤ _ := h2
    | none =>
      have h1 : (crawlerStepPage outcome p q).last_completed_page =
          p.last_completed_page := by
        rw [crawlerStepPage_last, ho]
      have h2 := ih (crawlerStepPage outcome p q) hsort.2
        (fun r hr => by rw [h1]; exact hlb r (List.mem_cons_of_mem _ hr))
      rw [h1] at h2
      exact h2

/-- After merging a batch, the checkpoint page is either unchanged or one
of the batch's pages. -/
theorem runPages_last_mem (outcome : Nat → Option Nat) :
    ∀ (pages : List Nat) (p : Progress),
    (runPages outcome p pages).last_completed_page = p.last_completed_page ∨
    (runPages outcome p pages).last_completed_page ∈ pages := by
  intro pages
  induction pages with
  | nil => intro p; exact Or.inl rfl
  | cons q rest ih =>
    intro p
    show (runPages outcome (crawlerStepPage outcome p q) rest).last_completed_page =
        p.last_completed_page ∨
      (runPages outcome (crawlerStepPage outcome p q) rest).last_completed_page ∈
        q :: rest
    cases ho : outcome q with
    | some c =>
      rcases ih (crawlerStepPage outcome p q) with h | h
      · refine Or.inr (List.mem_cons.mpr (Or.inl ?_))
        rw [h, crawlerStepPage_last, ho]
      · exact Or.inr (List.mem_cons_of_mem _ h)
    | none =>
      rcases ih (crawlerStepPage outcome p q) with h | h
      · refine Or.inl ?_
        rw [h, crawlerStepPage_last, ho]
      · exact Or.inr (List.mem_cons_of_mem _ h)

/-- The head of a `scanl` is its starting value. -/
theorem head?_scanl {α β : Type} (f : β → α → β) (b : β) (l : List α) :
    (List.scanl f b l).head? = some b := by
  cases l with
  | nil => rfl
  | cons a rest => rfl

/-- The checkpoint values produced while folding increasing batches are
monotone in `last_completed_page`. -/
theorem scanl_runPages_chain (outcome : Nat → Option Nat) :
    ∀ (bs : List (List Nat)) (p : Progress),
    (bs.flatten).Pairwise (· < ·) →
    (∀ q ∈ bs.flatten, p.last_completed_page ≤ q) →
    (bs.scanl (runPages outcome) p).Chain'
      (fun a b => a.last_completed_page ≤ b.last_completed_page) := by
  intro bs
  induction bs with
  | nil => intro p _ _; rw [List.scanl_nil]; exact List.chain'_singleton p
  | cons b rest ih =>
    intro p hsort hlb
    rw [List.flatten_cons] at hsort hlb
    have hparts := List.pairwise_append.mp hsort
    rw [List.scanl_cons, List.singleton_append]
    refine List.chain'_cons'.mpr ⟨?_, ?_⟩
    · intro y hy
      rw [head?_scanl] at hy
      have hy' : runPages outcome p b = y := by
        simpa using hy
      rw [← hy']
      exact runPages_last_mono outcome b p hparts.1
        (fun q hq => hlb q (List.mem_append_left _ hq))
    · apply ih (runPages outcome p b) hparts.2.1
      intro q hq
      rcases runPages_last_mem outcome b p with h | h
      · rw [h]; exact hlb q (List.mem_append_right _ hq)
      · exact Nat.le_of_lt (hparts.2.2 _ h _ hq)

/-- C1 (amended): across every run, `lastCompletedPageIndex` is
nondecreasing along the persisted checkpoints (the batches partition the
increasing page range `[lastCompletedPageIndex+1, totalPages]` and each
success sets the index to its own page).  The run does *not* guarantee the
other two parts of the claim: a success advances the index past failed
pages, so a failed page index may be `≤ lastCompletedPageIndex` while
staying in `failedPageIndices` (see the counterexample). -/
theorem c1_checkpoint_monotone (p₀ : Progress) (total conc : Nat)
    (hconc : 0 < conc) (outcome : Nat → Option Nat) :
    (savedCheckpoints outcome p₀ total conc).Chain'
      (fun a b => a.last_completed_page ≤ b.last_completed_page) := by
  rw [savedCheckpoints]
  apply scanl_runPages_chain
  · rw [crawlerBatches, chunksOf_flatten conc hconc]
    exact pairwise_lt_range' _ _
  · intro q hq
    rw [crawlerBatches, chunksOf_flatten conc hconc] at hq
    obtain ⟨i, hi, rfl⟩ := List.mem_range'.mp hq
    omega

/-- Counterexample for C1 as stated: run two pages in one batch where page 1
fails and page 2 succeeds.  The persisted checkpoint has
`lastCompletedPageIndex = 2` with `1` still in `failedPageIndices`, so page
1 is simultaneously counted completed (`1 ≤ 2`) and failed, and the
successful page 2 advanced the index across the gap left by page 1. -/
theorem c1_counterexample :
    ((savedCheckpoints (fun p => if p = 1 then none else some 3)
        Progress.new 2 2).getLastD Progress.new).last_completed_page = 2 ∧
    1 ∈ ((savedCheckpoints (fun p => if p = 1 then none else some 3)
        Progress.new 2 2).getLastD Progress.new).failed_pages ∧
    1 ≤ ((savedCheckpoints (fun p => if p = 1 then none else some 3)
        Progress.new 2 2).getLastD Progress.new).last_completed_page := by
  decide

/-- Witness for C1 at a concrete run (two pages, one batch of two, page 1
failing): the persisted checkpoint chain is monotone. -/
theorem c1_witness :
    0 < 2 ∧
    (savedCheckpoints (fun p => if p = 1 then none else some 3)
        Progress.new 2 2).Chain'
      (fun a b => a.last_completed_page ≤ b.last_completed_page) :=
  ⟨Nat.zero_lt_two, c1_checkpoint_monotone Progress.new 2 2 Nat.zero_lt_two
    (fun p => if p = 1 then none else some 3)⟩

end MemeCrawler
